import Mathlib

/-!
Verification of the unified-diff parser core of an LLM code-review bot.

The development shallowly embeds `src/diff_parser.py` (the parser and its
data model), the diff formatter of `src/prompt.py`, and the search-query
builder of `src/reviewer.py`.  Python strings are modelled as `List Char`;
the two regular expressions used by the parser are `$`/`^`-anchored or
literal enough to be given as direct recursive functions whose semantics
(maximal munch with the forced backtracking behaviour, lazy group for the
binary marker) coincide with `re` on the inputs in scope.  `\d` is modelled
as the ASCII digits, and `str.strip()` whitespace as the ASCII whitespace
characters; the embedded behaviour agrees with CPython on all-ASCII text.
-/

namespace DiffReview

/-- Python strings, modelled as lists of characters. -/
abbrev PStr := List Char

/-- Kind of a diff content line (`Line.type` in the source; the Python code
uses the strings `"add"`, `"delete"`, `"context"`). -/
inductive LKind where
  | add
  | delete
  | context
deriving DecidableEq, Repr

/-- `Line` dataclass of `diff_parser.py`. -/
structure Line where
  number : Nat
  content : PStr
  type : LKind
deriving DecidableEq, Repr

/-- `Hunk` dataclass of `diff_parser.py`. -/
structure Hunk where
  old_start : Nat
  old_count : Nat
  new_start : Nat
  new_count : Nat
  lines : List Line
deriving DecidableEq, Repr

/-- `FileDiff` dataclass of `diff_parser.py`.  The status strings are kept
as character lists, exactly as in the source. -/
structure FileDiff where
  filename : PStr
  old_filename : Option PStr
  status : PStr
  hunks : List Hunk
  is_binary : Bool
deriving DecidableEq, Repr

/-- `l.type == "add"` test used by the `added_lines` comprehension. -/
def Line.isAdd : Line → Bool
  | ⟨_, _, LKind.add⟩ => true
  | _ => false

/-- `l.type == "delete"` test used by the `deleted_lines` comprehension. -/
def Line.isDelete : Line → Bool
  | ⟨_, _, LKind.delete⟩ => true
  | _ => false

/-- `FileDiff.added_lines` property: all `add` lines across hunks, in order. -/
def FileDiff.added_lines (f : FileDiff) : List Line :=
  (List.flatten (f.hunks.map Hunk.lines)).filter Line.isAdd

/-- `FileDiff.deleted_lines` property: all `delete` lines across hunks, in order. -/
def FileDiff.deleted_lines (f : FileDiff) : List Line :=
  (List.flatten (f.hunks.map Hunk.lines)).filter Line.isDelete

/-- `DiffResult` dataclass of `diff_parser.py`. -/
structure DiffResult where
  files : List FileDiff
deriving DecidableEq, Repr

/-- The `SKIP_PATTERNS` of `diff_parser.py`.  Every pattern in the source is
a `$`-anchored literal (all dots escaped), so `re.search(p, filename)`
holds exactly when the corresponding literal is a suffix of the filename. -/
def SKIP_SUFFIXES : List PStr :=
  [("package-lock.json").data,
   ("yarn.lock").data,
   ("pnpm-lock.yaml").data,
   ("poetry.lock").data,
   ("Pipfile.lock").data,
   ("go.sum").data,
   (".min.js").data,
   (".min.css").data,
   (".map").data,
   (".svg").data,
   (".ico").data]

/-- `_should_skip` of `diff_parser.py`. -/
def _should_skip (filename : PStr) : Bool :=
  SKIP_SUFFIXES.any (fun p => p.isSuffixOf filename)

/-- `DiffResult.reviewable_files` property of `diff_parser.py`. -/
def DiffResult.reviewable_files (d : DiffResult) : List FileDiff :=
  d.files.filter (fun f => !f.is_binary && !_should_skip f.filename)

/-! ### The two regular expressions -/

/-- Strip a literal prefix, or fail. -/
def stripPrefixP (p s : PStr) : Option PStr :=
  if p.isPrefixOf s then some (s.drop p.length) else none

/-- Maximal run of ASCII digits at the front (`\d+` maximal munch). -/
def takeDigits : PStr → (List Char × PStr)
  | [] => ([], [])
  | c :: cs =>
    if c.isDigit then
      let p := takeDigits cs
      (c :: p.1, p.2)
    else ([], c :: cs)

/-- Value of a digit string, as `int()` computes it. -/
def digitsToNat (ds : List Char) : Nat :=
  ds.foldl (fun n c => n * 10 + (c.toNat - 48)) 0

/-- The optional `(?:,(\d+))?` group of the hunk-header regex: consumed only
when a comma followed by at least one digit is present (when the comma is
present without digits the group cannot match and the regex continues
without it, which then forces the same failure as not consuming here). -/
def parseOptCount : PStr → (Option (List Char) × PStr)
  | ',' :: cs =>
    let p := takeDigits cs
    if p.1 = [] then (none, ',' :: cs) else (some p.1, p.2)
  | s => (none, s)

/-- `re.match(r"^@@ -(\d+)(?:,(\d+))? \+(\d+)(?:,(\d+))? @@", line)` of
`parse_diff`, returning `(old_start, old_count, new_start, new_count)` with
the counts already defaulted to 1 as the source does. -/
def parseHunkHeader (line : PStr) : Option (Nat × Nat × Nat × Nat) :=
  match stripPrefixP (("@@ -").data) line with
  | none => none
  | some r1 =>
    let p1 := takeDigits r1
    if p1.1 = [] then none else
    let q1 := parseOptCount p1.2
    match stripPrefixP ((" +").data) q1.2 with
    | none => none
    | some r2 =>
      let p2 := takeDigits r2
      if p2.1 = [] then none else
      let q2 := parseOptCount p2.2
      match stripPrefixP ((" @@").data) q2.2 with
      | none => none
      | some _ =>
        some (digitsToNat p1.1, (q1.1.map digitsToNat).getD 1,
              digitsToNat p2.1, (q2.1.map digitsToNat).getD 1)

/-- The lazy group of `re.search(r"and b/(.+?) differ", line)`: consume at
least one character, stopping at the first position where ` differ`
follows. -/
def grabUntilDiffer : PStr → Option PStr
  | [] => none
  | c :: cs =>
    if ((" differ").data).isPrefixOf cs then some [c]
    else
      match grabUntilDiffer cs with
      | some t => some (c :: t)
      | none => none

/-- `re.search(r"and b/(.+?) differ", line)`: leftmost match position, lazy
group; returns the captured group (the binary file's path). -/
def searchBinary : PStr → Option PStr
  | [] => none
  | c :: cs =>
    match stripPrefixP (("and b/").data) (c :: cs) with
    | some rest =>
      match grabUntilDiffer rest with
      | some name => some name
      | none => searchBinary cs
    | none => searchBinary cs

/-! ### The scanning state and the per-line transition

`parse_diff` keeps `current_file`, `current_hunk`, `new_line_num` and
`pending_status` while scanning.  In the source, `current_file` is an
object reference which, whenever it is not `None`, is the last element of
`result.files` (every assignment of a `FileDiff` to it is immediately
followed by the append, and it is otherwise only reset to `None`); it is
therefore modelled by the flag `hasFile`.  `current_hunk`, whenever it is
not `None`, is the last hunk of the file that was current when the hunk
header was consumed; later file constructions (which do not reset
`current_hunk`) may make that file a non-final element of `files`, so the
hunk is modelled by the index `curHunk` of its owning file, the hunk itself
being that file's last hunk (no hunk is ever appended to a file after the
scan has moved past it, so "last hunk of file `curHunk`" is stable). -/

structure PState where
  files : List FileDiff
  hasFile : Bool
  curHunk : Option Nat
  newLineNum : Nat
  pending : Option PStr
deriving DecidableEq, Repr

def initState : PState := ⟨[], false, none, 0, none⟩

/-- Replace the element at an index (identity when out of range). -/
def modifyIdx : List α → Nat → (α → α) → List α
  | [], _, _ => []
  | a :: as, 0, f => f a :: as
  | a :: as, n + 1, f => a :: modifyIdx as n f

/-- Replace the last element (identity on `[]`). -/
def modifyLast (f : α → α) : List α → List α
  | [] => []
  | [a] => [f a]
  | a :: b :: as => a :: modifyLast f (b :: as)

/-- `current_file.hunks.append(hunk)`. -/
def pushHunk (hk : Hunk) (f : FileDiff) : FileDiff :=
  { f with hunks := f.hunks ++ [hk] }

/-- `current_hunk.lines.append(line)` (the current hunk is the last hunk of
its owning file). -/
def pushLine (l : Line) (f : FileDiff) : FileDiff :=
  { f with hunks := modifyLast (fun h => { h with lines := h.lines ++ [l] }) f.hunks }

/-- The trailing content-line branch of the loop body of `parse_diff`
(`if current_hunk is not None: ...`). -/
def contentStep (s : PState) (line : PStr) : PState :=
  match s.curHunk, line with
  | some i, '+' :: rest =>
    { s with files := modifyIdx s.files i (pushLine ⟨s.newLineNum, rest, LKind.add⟩),
             newLineNum := s.newLineNum + 1 }
  | some i, '-' :: rest =>
    { s with files := modifyIdx s.files i (pushLine ⟨s.newLineNum, rest, LKind.delete⟩) }
  | some i, ' ' :: rest =>
    { s with files := modifyIdx s.files i (pushLine ⟨s.newLineNum, rest, LKind.context⟩),
             newLineNum := s.newLineNum + 1 }
  | _, _ => s

/-- One iteration of the `for line in diff_text.split("\n")` loop of
`parse_diff`, with the branches in source order. -/
def step (s : PState) (line : PStr) : PState :=
  if (("diff --git").data).isPrefixOf line then
    { s with hasFile := false, curHunk := none, pending := none }
  else if (("new file").data).isPrefixOf line then
    { s with pending := some (("added").data) }
  else if (("deleted file").data).isPrefixOf line then
    { s with pending := some (("deleted").data) }
  else if (("Binary files").data).isPrefixOf line then
    match searchBinary line with
    | some name =>
      { s with files := s.files ++ [⟨name, none, ("binary").data, [], true⟩],
               hasFile := true }
    | none => s
  else if (("--- ").data).isPrefixOf line then
    let path := line.drop 4
    if s.pending = some (("deleted").data) ∧ (("a/").data).isPrefixOf path then
      { s with files := s.files ++ [⟨path.drop 2, none, ("deleted").data, [], false⟩],
               hasFile := true }
    else s
  else if (("+++ ").data).isPrefixOf line then
    let path := line.drop 4
    if path = ("/dev/null").data then s
    else
      let filename := if (("b/").data).isPrefixOf path then path.drop 2 else path
      { s with files := s.files ++ [⟨filename, none, s.pending.getD (("modified").data), [], false⟩],
               hasFile := true }
  else if (("index ").data).isPrefixOf line then s
  else
    match parseHunkHeader line, s.hasFile with
    | some (o, oc, n, nc), true =>
      { s with files := modifyLast (pushHunk ⟨o, oc, n, nc, []⟩) s.files,
               curHunk := some (s.files.length - 1),
               newLineNum := n }
    | _, _ => contentStep s line

/-- `"".split("\n")` is `[""]`, and in general Python's `split` on a single
separator character. -/
def splitNl : PStr → List PStr
  | [] => [[]]
  | c :: cs =>
    if c = '\n' then [] :: splitNl cs
    else
      match splitNl cs with
      | [] => [[c]]
      | p :: ps => (c :: p) :: ps

/-- The loop of `parse_diff` over an explicit list of lines. -/
def parseLines (ls : List PStr) : DiffResult :=
  ⟨(ls.foldl step initState).files⟩

/-- `parse_diff` of `diff_parser.py`. -/
def parse_diff (diff_text : String) : DiffResult :=
  parseLines (splitNl diff_text.data)

/-! ### `format_diff` of `prompt.py` -/

/-- The marker re-attachment of `format_diff`'s inner loop. -/
def formatLine (l : Line) : PStr :=
  match l.type with
  | LKind.add => '+' :: l.content
  | LKind.delete => '-' :: l.content
  | LKind.context => ' ' :: l.content

/-- The f-string `@@ -{old_start},{old_count} +{new_start},{new_count} @@`. -/
def hunkHeaderLine (h : Hunk) : PStr :=
  (("@@ -").data) ++ (Nat.toDigits 10 h.old_start) ++ [','] ++ (Nat.toDigits 10 h.old_count)
    ++ ((" +").data) ++ (Nat.toDigits 10 h.new_start) ++ [','] ++ (Nat.toDigits 10 h.new_count)
    ++ ((" @@").data)

/-- The `lines` list accumulated by `format_diff` before the final join. -/
def formatDiffLines (f : FileDiff) : List PStr :=
  List.flatten (f.hunks.map (fun h => hunkHeaderLine h :: h.lines.map formatLine))

/-- `"\n".join`. -/
def joinNl (ls : List PStr) : PStr := List.intercalate ['\n'] ls

/-- `format_diff` of `prompt.py`. -/
def format_diff (f : FileDiff) : PStr := joinNl (formatDiffLines f)

/-! ### `Reviewer._build_search_query` of `reviewer.py` -/

/-- Characters stripped by Python's `str.strip()` (ASCII fragment). -/
def pyIsSpace (c : Char) : Bool :=
  c == ' ' || c == '\t' || c == '\n' || c == '\r' || c == '\x0b' || c == '\x0c'

/-- Truthiness of `l.content.strip()`: some non-whitespace character. -/
def hasText (c : PStr) : Bool := c.any (fun ch => !(pyIsSpace ch))

/-- `Reviewer._build_search_query` of `reviewer.py`. -/
def _build_search_query (f : FileDiff) : PStr :=
  let added0 := (f.added_lines.map Line.content).filter hasText
  let added :=
    if added0 = [] then (f.deleted_lines.map Line.content).filter hasText
    else added0
  (joinNl added).take 500

/-! ### Derived definitions used to state and settle the claims -/

/-- A line of kind `add` or `context`. -/
def Line.isAC : Line → Bool
  | ⟨_, _, LKind.delete⟩ => false
  | _ => true

/-- The new-file line counter after consuming `ls`, starting from `n`:
incremented for `add`/`context` lines, unchanged for `delete` lines — the
`new_line_num` bookkeeping of `parse_diff`. -/
def afterC : Nat → List Line → Nat
  | n, [] => n
  | n, l :: ls => afterC (if l.type = LKind.delete then n else n + 1) ls

/-- The lines carry the numbers produced by the counter recurrence
starting at `n`: each line's `number` is the current counter value, and the
counter advances only on `add`/`context` lines. -/
def numberedFrom : Nat → List Line → Prop
  | _, [] => True
  | n, l :: ls => l.number = n ∧ numberedFrom (if l.type = LKind.delete then n else n + 1) ls

/-- Total number of hunks across all files of a result. -/
def totalHunks (d : DiffResult) : Nat := (d.files.map (fun f => f.hunks.length)).sum

/-- The parser state reached after consuming `ls`. -/
def parseState (ls : List PStr) : PState := ls.foldl step initState

/-- The `j`-th hunk of the `i`-th file of a file list, if present.  Hunks
are only ever appended, never removed or reordered, so a pair of indices
identifies a hunk stably across the scan. -/
def hunksAtL (fs : List FileDiff) (i j : Nat) : Option Hunk :=
  match fs[i]? with
  | some f => f.hunks[j]?
  | none => none

/-- `hunksAtL` on a state. -/
def hunkAt (s : PState) (i j : Nat) : Option Hunk := hunksAtL s.files i j

/-- The position of the hunk a `curHunk` value points at: the last hunk
of the file at that index. -/
def openPosL (fs : List FileDiff) (c : Option Nat) : Option (Nat × Nat) :=
  match c with
  | some i =>
    match fs[i]? with
    | some f => some (i, f.hunks.length - 1)
    | none => none
  | none => none

/-- The position of the hunk currently receiving content lines. -/
def openPos (s : PState) : Option (Nat × Nat) := openPosL s.files s.curHunk

/-- Whether the current file (the last file, when `hasFile`) is binary. -/
def lastBinary (s : PState) : Bool :=
  s.hasFile &&
    (match s.files.getLast? with
     | some f => f.is_binary
     | none => false)

/-- No line matching the hunk-header regex occurs before the next
`diff --git` line. -/
def noHunkBeforeGit : List PStr → Bool
  | [] => true
  | l :: ls =>
    if (("diff --git").data).isPrefixOf l then true
    else if (parseHunkHeader l).isSome then false
    else noHunkBeforeGit ls

/-- Every binary-marker line that constructs a binary `FileDiff` is
followed by a `diff --git` line before any hunk-header line. -/
def binarySafe : List PStr → Bool
  | [] => true
  | l :: ls =>
    ((!((("Binary files").data).isPrefixOf l && (searchBinary l).isSome))
        || noHunkBeforeGit ls)
      && binarySafe ls

/-- The standard deleted-file section of a unified diff whose hunk content
is the given `-`-prefixed lines. -/
def deletedSection (cs : List PStr) : List PStr :=
  [("diff --git a/config.json b/config.json").data,
   ("deleted file mode 100644").data,
   ("index 1234567..0000000").data,
   ("--- a/config.json").data,
   ("+++ /dev/null").data,
   ("@@ -1,1 +0,0 @@").data]
    ++ cs.map (fun c => '-' :: c)

/-- The query builder exactly as the spec sentence of C10 words it: the
newline-joined text of `added_lines`, falling back to `deleted_lines`
exactly when the file has no added lines, truncated to 500 characters.
This follows the claim's words, not the source; it exists only to be
compared against `_build_search_query`. -/
def claimedSearchQuery (f : FileDiff) : PStr :=
  (joinNl ((if f.added_lines = [] then f.deleted_lines else f.added_lines).map
      Line.content)).take 500

/-- The parser-state invariant carried through the scan, parametrised by
the full list `LS` of input lines:
* every hunk of every file is numbered by the counter recurrence from its
  `new_start`, and re-attaching the stripped marker to any of its lines
  reproduces one of the input lines;
* when a hunk is open, its owning file exists, the hunk is that file's
  last hunk, and `newLineNum` is exactly the counter value after the
  lines accumulated so far;
* when `hasFile` is set, the file list is nonempty (the current file is
  its last element). -/
structure StInv (LS : List PStr) (s : PState) : Prop where
  hunks_ok : ∀ f ∈ s.files, ∀ h ∈ f.hunks,
    numberedFrom h.new_start h.lines ∧ ∀ l ∈ h.lines, formatLine l ∈ LS
  cur_ok : ∀ i, s.curHunk = some i →
    ∃ f : FileDiff, s.files[i]? = some f ∧
      ∃ hk : Hunk, f.hunks.getLast? = some hk ∧
        s.newLineNum = afterC hk.new_start hk.lines
  file_ok : s.hasFile = true → s.files ≠ []

/-! ## Lemmas: list surgery helpers -/

theorem modifyIdx_length (l : List α) (i : Nat) (f : α → α) :
    (modifyIdx l i f).length = l.length := by
  induction l generalizing i with
  | nil => rfl
  | cons a as ih =>
    cases i with
    | zero => rfl
    | succ n => simpa [modifyIdx] using ih n

theorem modifyIdx_getElem? (l : List α) (i j : Nat) (f : α → α) :
    (modifyIdx l i f)[j]? = if j = i then (l[j]?).map f else l[j]? := by
  induction l generalizing i j with
  | nil => simp [modifyIdx]
  | cons a as ih =>
    cases i with
    | zero =>
      cases j with
      | zero => simp [modifyIdx]
      | succ m => simp [modifyIdx]
    | succ n =>
      cases j with
      | zero => simp [modifyIdx]
      | succ m => simpa [modifyIdx, Nat.succ_inj] using ih n m

theorem mem_modifyIdx {l : List α} {i : Nat} {f : α → α} {a : α}
    (h : a ∈ modifyIdx l i f) :
    a ∈ l ∨ ∃ y, l[i]? = some y ∧ a = f y := by
  rcases List.mem_iff_getElem?.1 h with ⟨j, hj⟩
  rw [modifyIdx_getElem? l i j f] at hj
  by_cases hji : j = i
  · subst hji
    rcases hy : l[j]? with _ | y
    · rw [hy] at hj; simp at hj
    · rw [hy] at hj
      refine Or.inr ⟨y, rfl, ?_⟩
      simp at hj
      first
      | exact hj
      | exact hj.symm
  · rw [if_neg hji] at hj
    exact Or.inl (List.mem_iff_getElem?.2 ⟨j, hj⟩)

theorem modifyIdx_ne_nil {l : List α} {i : Nat} {f : α → α} (h : l ≠ []) :
    modifyIdx l i f ≠ [] := by
  cases l with
  | nil => exact absurd rfl h
  | cons a as => cases i <;> simp [modifyIdx]

theorem modifyLast_concat (f : α → α) (A : List α) (x : α) :
    modifyLast f (A ++ [x]) = A ++ [f x] := by
  induction A with
  | nil => rfl
  | cons a A ih =>
    cases A with
    | nil => rfl
    | cons b B => simpa [modifyLast] using ih

theorem modifyLast_eq_of_getLast? {l : List α} {x : α} (g : α → α)
    (h : l.getLast? = some x) : modifyLast g l = l.dropLast ++ [g x] := by
  rcases List.eq_nil_or_concat l with rfl | ⟨L, b, rfl⟩
  · simp at h
  · simp only [List.concat_eq_append] at h ⊢
    rw [List.getLast?_concat] at h
    obtain rfl : b = x := by simpa using h
    rw [modifyLast_concat, List.dropLast_concat]

theorem eq_dropLast_concat_of_getLast? {l : List α} {x : α}
    (h : l.getLast? = some x) : l = l.dropLast ++ [x] := by
  rcases List.eq_nil_or_concat l with rfl | ⟨L, b, rfl⟩
  · simp at h
  · simp only [List.concat_eq_append] at h ⊢
    rw [List.getLast?_concat] at h
    obtain rfl : b = x := by simpa using h
    rw [List.dropLast_concat]

/-! ## Lemmas: the counter recurrence -/

theorem afterC_append (n : Nat) (xs ys : List Line) :
    afterC n (xs ++ ys) = afterC (afterC n xs) ys := by
  induction xs generalizing n with
  | nil => rfl
  | cons l ls ih => simp [afterC, ih]

theorem numberedFrom_append_one (n : Nat) (ls : List Line) (c : PStr) (t : LKind)
    (h : numberedFrom n ls) :
    numberedFrom n (ls ++ [⟨afterC n ls, c, t⟩]) := by
  induction ls generalizing n with
  | nil => exact ⟨rfl, trivial⟩
  | cons l ls ih =>
    exact ⟨h.1, ih _ h.2⟩

theorem numberedFrom_get (n : Nat) (ls : List Line) (h : numberedFrom n ls)
    (i : Nat) (hi : i < ls.length) :
    (ls.get ⟨i, hi⟩).number = afterC n (ls.take i) := by
  induction ls generalizing n i with
  | nil => simp at hi
  | cons l ls ih =>
    cases i with
    | zero => simpa [afterC] using h.1
    | succ m =>
      have := ih _ h.2 m (by simpa using hi)
      simpa [afterC, List.take_succ_cons] using this

theorem numberedFrom_filter_map (n : Nat) (ls : List Line) (h : numberedFrom n ls) :
    (ls.filter Line.isAC).map Line.number
      = List.range' n ((ls.filter Line.isAC).length) := by
  induction ls generalizing n with
  | nil => rfl
  | cons l ls ih =>
    obtain ⟨num, content, t⟩ := l
    simp only [numberedFrom] at h
    obtain ⟨h1, h2⟩ := h
    cases t with
    | delete =>
      have hrest := ih _ (by simpa using h2)
      simpa [List.filter_cons, Line.isAC] using hrest
    | add =>
      have hrest := ih _ (by simpa using h2)
      simp [List.filter_cons, Line.isAC, hrest, List.range'_succ, h1]
    | context =>
      have hrest := ih _ (by simpa using h2)
      simp [List.filter_cons, Line.isAC, hrest, List.range'_succ, h1]

/-! ## Lemmas: preservation of the master invariant -/

theorem stInv_push_file (LS : List PStr) (s : PState) (fd : FileDiff)
    (hs : StInv LS s) (hemp : fd.hunks = []) :
    StInv LS { s with files := s.files ++ [fd], hasFile := true } := by
  refine ⟨?_, ?_, ?_⟩
  · intro f hf h hh
    rcases List.mem_append.1 hf with hf | hf
    · exact hs.hunks_ok f hf h hh
    · obtain rfl : f = fd := by simpa using hf
      rw [hemp] at hh
      simp at hh
  · intro i hi
    obtain ⟨f, hf, hk, hlast, hnum⟩ := hs.cur_ok i hi
    refine ⟨f, ?_, hk, hlast, hnum⟩
    have hilen : i < s.files.length := (List.getElem?_eq_some.1 hf).1
    simpa [List.getElem?_append, hilen] using hf
  · intro _
    simp

theorem stInv_push_hunk (LS : List PStr) (s : PState) (o oc n nc : Nat)
    (hs : StInv LS s) (hf : s.hasFile = true) :
    StInv LS { s with
      files := modifyLast (pushHunk ⟨o, oc, n, nc, []⟩) s.files,
      curHunk := some (s.files.length - 1),
      newLineNum := n } := by
  have hne := hs.file_ok hf
  rcases List.eq_nil_or_concat s.files with hnil | ⟨A, x, hAx⟩
  · exact absurd hnil hne
  rw [List.concat_eq_append] at hAx
  refine ⟨?_, ?_, ?_⟩
  · intro f hfm h hh
    rw [hAx, modifyLast_concat] at hfm
    rcases List.mem_append.1 hfm with hfm | hfm
    · exact hs.hunks_ok f (by rw [hAx]; exact List.mem_append_left _ hfm) h hh
    · obtain rfl : f = pushHunk ⟨o, oc, n, nc, []⟩ x := by simpa using hfm
      simp only [pushHunk] at hh
      rcases List.mem_append.1 hh with hh | hh
      · exact hs.hunks_ok x (by rw [hAx]; exact List.mem_append_right _ (by simp)) h hh
      · obtain rfl : h = (⟨o, oc, n, nc, []⟩ : Hunk) := by simpa using hh
        exact ⟨trivial, by simp⟩
  · intro i hi
    have hii : s.files.length - 1 = i := Option.some_inj.mp hi
    subst hii
    have hlen : s.files.length - 1 = A.length := by rw [hAx]; simp
    rw [hlen]
    refine ⟨pushHunk ⟨o, oc, n, nc, []⟩ x, ?_, ⟨o, oc, n, nc, []⟩, ?_, rfl⟩
    · rw [hAx, modifyLast_concat]
      exact List.getElem?_concat_length A _
    · simp [pushHunk, List.getLast?_concat]
  · intro _
    rw [hAx, modifyLast_concat]
    simp

theorem stInv_push_line (LS : List PStr) (s : PState) (i : Nat) (rest : PStr) (t : LKind)
    (nl2 : Nat) (hs : StInv LS s) (hcur : s.curHunk = some i)
    (hfmt : formatLine ⟨s.newLineNum, rest, t⟩ ∈ LS)
    (hnl : nl2 = if t = LKind.delete then s.newLineNum else s.newLineNum + 1) :
    StInv LS { s with
      files := modifyIdx s.files i (pushLine ⟨s.newLineNum, rest, t⟩),
      newLineNum := nl2 } := by
  obtain ⟨f, hfi, hk, hlast, hnum⟩ := hs.cur_ok i hcur
  have hdecomp : f.hunks = f.hunks.dropLast ++ [hk] := eq_dropLast_concat_of_getLast? hlast
  have hkmem : hk ∈ f.hunks := by
    rw [hdecomp]
    exact List.mem_append_right _ (by simp)
  have hpush : (pushLine ⟨s.newLineNum, rest, t⟩ f).hunks
      = f.hunks.dropLast ++ [{ hk with lines := hk.lines ++ [⟨s.newLineNum, rest, t⟩] }] := by
    exact modifyLast_eq_of_getLast? _ hlast
  have hknew : numberedFrom hk.new_start (hk.lines ++ [⟨s.newLineNum, rest, t⟩]) := by
    have hn := (hs.hunks_ok f (List.getElem?_mem hfi) hk hkmem).1
    rw [hnum]
    exact numberedFrom_append_one _ _ _ _ hn
  refine ⟨?_, ?_, ?_⟩
  · intro g hg h hh
    rcases mem_modifyIdx hg with hg | ⟨y, hy, rfl⟩
    · exact hs.hunks_ok g hg h hh
    · obtain rfl : f = y := by rw [hy] at hfi; exact (Option.some_inj.mp hfi).symm
      rw [hpush] at hh
      rcases List.mem_append.1 hh with hh | hh
      · exact hs.hunks_ok f (List.getElem?_mem hfi) h
          ((List.dropLast_sublist f.hunks).subset hh)
      · obtain rfl : h = ({ hk with lines := hk.lines ++ [⟨s.newLineNum, rest, t⟩] } : Hunk) := by
          simpa using hh
        constructor
        · exact hknew
        · intro l hl
          rcases List.mem_append.1 hl with hl | hl
          · exact (hs.hunks_ok f (List.getElem?_mem hfi) hk hkmem).2 l hl
          · obtain rfl : l = (⟨s.newLineNum, rest, t⟩ : Line) := by simpa using hl
            exact hfmt
  · intro j hj
    have hji : i = j := by
      have hj2 : (some i : Option Nat) = some j := by rw [← hcur]; exact hj
      exact Option.some_inj.mp hj2
    subst hji
    refine ⟨pushLine ⟨s.newLineNum, rest, t⟩ f, ?_, ?_⟩
    · simp [modifyIdx_getElem?, hfi]
    · refine ⟨{ hk with lines := hk.lines ++ [⟨s.newLineNum, rest, t⟩] }, ?_, ?_⟩
      · rw [hpush]
        exact List.getLast?_concat _
      · show nl2 = afterC hk.new_start (hk.lines ++ [⟨s.newLineNum, rest, t⟩])
        rw [afterC_append, ← hnum, hnl]
        simp [afterC]
  · exact fun hF => modifyIdx_ne_nil (hs.file_ok hF)

theorem stInv_content (LS : List PStr) (s : PState) (line : PStr)
    (hs : StInv LS s) (hl : line ∈ LS) : StInv LS (contentStep s line) := by
  unfold contentStep
  split
  · next xv lv i rest heq =>
    exact stInv_push_line LS s i rest LKind.add (s.newLineNum + 1) hs heq
      (by simpa [formatLine] using hl) (by simp)
  · next xv lv i rest heq =>
    exact stInv_push_line LS s i rest LKind.delete s.newLineNum hs heq
      (by simpa [formatLine] using hl) (by simp)
  · next xv lv i rest heq =>
    exact stInv_push_line LS s i rest LKind.context (s.newLineNum + 1) hs heq
      (by simpa [formatLine] using hl) (by simp)
  · exact hs

theorem stInv_step (LS : List PStr) (s : PState) (line : PStr)
    (hs : StInv LS s) (hl : line ∈ LS) : StInv LS (step s line) := by
  unfold step
  split
  · exact ⟨hs.hunks_ok, fun i hi => Option.noConfusion hi, fun hF => Bool.noConfusion hF⟩
  split
  · exact ⟨hs.hunks_ok, hs.cur_ok, hs.file_ok⟩
  split
  · exact ⟨hs.hunks_ok, hs.cur_ok, hs.file_ok⟩
  split
  · split
    · exact stInv_push_file LS s _ hs rfl
    · exact hs
  split
  · dsimp only
    split
    · exact stInv_push_file LS s _ hs rfl
    · exact hs
  split
  · dsimp only
    split
    · exact hs
    · exact stInv_push_file LS s _ hs rfl
  split
  · exact hs
  split
  · next o oc n nc hmatch hhas =>
    exact stInv_push_hunk LS s o oc n nc hs hhas
  · exact stInv_content LS s line hs hl

theorem stInv_foldl (LS : List PStr) (ls : List PStr) (s : PState)
    (hs : StInv LS s) (hsub : ∀ l ∈ ls, l ∈ LS) :
    StInv LS (ls.foldl step s) := by
  induction ls generalizing s with
  | nil => exact hs
  | cons l ls ih =>
    exact ih (step s l) (stInv_step LS s l hs (hsub l (by simp)))
      (fun x hx => hsub x (by simp [hx]))

theorem stInv_init (LS : List PStr) : StInv LS initState := by
  refine ⟨?_, ?_, ?_⟩
  · intro f hf
    simp [initState] at hf
  · intro i hi
    simp [initState] at hi
  · intro hF
    simp [initState] at hF

theorem stInv_parse (s : String) :
    StInv (splitNl s.data) (parseState (splitNl s.data)) :=
  stInv_foldl _ _ _ (stInv_init _) (fun _ hx => hx)

/-! ## Lemmas: slicing the counter recurrence -/

theorem take_concat_get (ls : List Line) (j : Nat) (hj : j < ls.length) :
    ls.take (j + 1) = ls.take j ++ [ls.get ⟨j, hj⟩] := by
  rw [List.take_succ]
  congr 1
  rw [List.getElem?_eq_getElem hj]
  rfl

theorem afterC_take_all_delete (ls : List Line) (n : Nat) (i j : Nat)
    (hij : i ≤ j) (hj : j ≤ ls.length)
    (hdel : ∀ k (hk : k < ls.length), i ≤ k → k < j →
      (ls.get ⟨k, hk⟩).type = LKind.delete) :
    afterC n (ls.take j) = afterC n (ls.take i) := by
  induction j with
  | zero =>
    obtain rfl : i = 0 := by omega
    rfl
  | succ m ih =>
    rcases Nat.eq_or_lt_of_le hij with rfl | hlt
    · rfl
    · have him : i ≤ m := by omega
      have hm : m < ls.length := by omega
      rw [take_concat_get ls m hm, afterC_append]
      have hdm := hdel m hm him (by omega)
      simp only [afterC, hdm, if_pos]
      exact ih him (by omega) (fun k hk h1 h2 => hdel k hk h1 (by omega))

/-! ## Lemmas: hunk counting -/

theorem modifyLast_length (f : α → α) (l : List α) :
    (modifyLast f l).length = l.length := by
  induction l with
  | nil => rfl
  | cons a t ih =>
    cases t with
    | nil => rfl
    | cons b t2 => simpa [modifyLast] using ih

theorem sum_hunks_modifyLast (fs : List FileDiff) (hk : Hunk) :
    ((modifyLast (pushHunk hk) fs).map (fun f => f.hunks.length)).sum
      ≤ (fs.map (fun f => f.hunks.length)).sum + 1 := by
  induction fs with
  | nil => simp [modifyLast]
  | cons a t ih =>
    cases t with
    | nil => simp [modifyLast, pushHunk]
    | cons b t2 =>
      simp only [modifyLast, List.map_cons, List.sum_cons]
      have := ih
      simp only [List.map_cons, List.sum_cons] at this ⊢
      omega

theorem sum_hunks_modifyIdx_pushLine (fs : List FileDiff) (i : Nat) (l : Line) :
    ((modifyIdx fs i (pushLine l)).map (fun f => f.hunks.length)).sum
      = (fs.map (fun f => f.hunks.length)).sum := by
  induction fs generalizing i with
  | nil => rfl
  | cons a t ih =>
    cases i with
    | zero => simp [modifyIdx, pushLine, modifyLast_length]
    | succ n => simp [modifyIdx, ih n]

theorem hunkCount_contentStep (s : PState) (l : PStr) :
    ((contentStep s l).files.map (fun f => f.hunks.length)).sum
      = (s.files.map (fun f => f.hunks.length)).sum := by
  unfold contentStep
  split
  · exact sum_hunks_modifyIdx_pushLine _ _ _
  · exact sum_hunks_modifyIdx_pushLine _ _ _
  · exact sum_hunks_modifyIdx_pushLine _ _ _
  · rfl

theorem hunkCount_step (s : PState) (l : PStr) :
    ((step s l).files.map (fun f => f.hunks.length)).sum
      ≤ (s.files.map (fun f => f.hunks.length)).sum
        + (if (parseHunkHeader l).isSome then 1 else 0) := by
  unfold step
  split
  · simp
  split
  · simp
  split
  · simp
  split
  · split
    · simp
    · simp
  split
  · dsimp only
    split
    · simp
    · simp
  split
  · dsimp only
    split
    · simp
    · simp
  split
  · simp
  split
  · next o oc n nc hmatch hhas =>
    have h1 := sum_hunks_modifyLast s.files ⟨o, oc, n, nc, []⟩
    rw [hmatch]
    simpa using h1
  · rw [hunkCount_contentStep]
    omega

theorem hunkCount_foldl (ls : List PStr) (s : PState) :
    ((ls.foldl step s).files.map (fun f => f.hunks.length)).sum
      ≤ (s.files.map (fun f => f.hunks.length)).sum
        + (ls.filter (fun l => (parseHunkHeader l).isSome)).length := by
  induction ls generalizing s with
  | nil => simp
  | cons l ls ih =>
    simp only [List.foldl_cons, List.filter_cons]
    have h1 := hunkCount_step s l
    have h2 := ih (step s l)
    by_cases hm : (parseHunkHeader l).isSome = true
    · rw [if_pos hm] at h1 ⊢
      simp only [List.length_cons]
      omega
    · rw [if_neg hm] at h1 ⊢
      omega

/-! ## Claim theorems -/

/-- Claim C1: for every input string and every `Hunk` in the `parse_diff`
result, the numbers of that hunk's `add`/`context` lines form a strictly
increasing consecutive integer sequence whose first element equals the
hunk's `new_start` — i.e. they are exactly `new_start, new_start+1, ...`
(`List.range'` with step 1). -/
theorem hunk_numbers_consecutive (s : String) (f : FileDiff) (h : Hunk)
    (hf : f ∈ (parse_diff s).files) (hh : h ∈ f.hunks) :
    (h.lines.filter Line.isAC).map Line.number
      = List.range' h.new_start ((h.lines.filter Line.isAC).length) :=
  numberedFrom_filter_map _ _ ((stInv_parse s).hunks_ok f hf h hh).1

/-- Witness for C1: a two-hunk-line example where the `add`/`context`
numbers are `5, 6`, i.e. `List.range' 5 2`. -/
theorem hunk_numbers_consecutive_witness :
    (((Hunk.mk 1 2 5 3
        [⟨5, ("x").data, LKind.context⟩, ⟨6, ("d").data, LKind.delete⟩,
         ⟨6, ("y").data, LKind.add⟩]).lines.filter Line.isAC).map Line.number)
      = List.range' 5
          (((Hunk.mk 1 2 5 3
            [⟨5, ("x").data, LKind.context⟩, ⟨6, ("d").data, LKind.delete⟩,
             ⟨6, ("y").data, LKind.add⟩]).lines.filter Line.isAC).length) :=
  hunk_numbers_consecutive ("+++ b/a\n@@ -1,2 +5,3 @@\n x\n-d\n+y")
    (FileDiff.mk (("a").data) none (("modified").data)
      [⟨1, 2, 5, 3,
        [⟨5, ("x").data, LKind.context⟩, ⟨6, ("d").data, LKind.delete⟩,
         ⟨6, ("y").data, LKind.add⟩]⟩] false)
    (Hunk.mk 1 2 5 3
      [⟨5, ("x").data, LKind.context⟩, ⟨6, ("d").data, LKind.delete⟩,
       ⟨6, ("y").data, LKind.add⟩])
    (by decide) (by decide)

/-- Claim C2: in every hunk of every `parse_diff` result, a `delete` line
carries as its `number` the current new-file counter value (`afterC` is
the counter recurrence: it advances only on `add`/`context` lines, never
on `delete` lines); any later line separated from it only by `delete`
lines — in particular the next `add`/`context` line — receives that same
number, and a `delete` line immediately following it shares its number. -/
theorem delete_line_numbering (s : String) (f : FileDiff) (h : Hunk)
    (hf : f ∈ (parse_diff s).files) (hh : h ∈ f.hunks)
    (i : Nat) (hi : i < h.lines.length)
    (hdel : (h.lines.get ⟨i, hi⟩).type = LKind.delete) :
    (h.lines.get ⟨i, hi⟩).number = afterC h.new_start (h.lines.take i)
    ∧ (∀ j (hj : j < h.lines.length), i < j →
        (∀ k (hk : k < h.lines.length), i ≤ k → k < j →
          (h.lines.get ⟨k, hk⟩).type = LKind.delete) →
        (h.lines.get ⟨j, hj⟩).number = (h.lines.get ⟨i, hi⟩).number)
    ∧ (∀ hi1 : i + 1 < h.lines.length,
        (h.lines.get ⟨i + 1, hi1⟩).type = LKind.delete →
        (h.lines.get ⟨i + 1, hi1⟩).number = (h.lines.get ⟨i, hi⟩).number) := by
  have hnumd : numberedFrom h.new_start h.lines :=
    ((stInv_parse s).hunks_ok f hf h hh).1
  have hget := numberedFrom_get _ _ hnumd
  refine ⟨hget i hi, ?_, ?_⟩
  · intro j hj hij hdelr
    rw [hget j hj, hget i hi]
    exact afterC_take_all_delete _ _ i j (Nat.le_of_lt hij) (Nat.le_of_lt hj) hdelr
  · intro hi1 hdel1
    rw [hget (i + 1) hi1, hget i hi]
    refine afterC_take_all_delete _ _ i (i + 1) (by omega) (by omega) ?_
    intro k hk h1 h2
    obtain rfl : k = i := by omega
    exact hdel

/-- Witness for C2: in `@@ -1,2 +5,3 @@` with lines context/delete/delete/add,
the first delete (index 1) carries the counter value 6, the delete right
after it shares the number, and the next `add` line (index 3) receives the
same number 6. -/
theorem delete_line_numbering_witness :
    ((Line.mk 6 (("d").data) LKind.delete).number
        = afterC 5 (List.take 1
            ([⟨5, ("x").data, LKind.context⟩, ⟨6, ("d").data, LKind.delete⟩,
              ⟨6, ("e").data, LKind.delete⟩, ⟨6, ("y").data, LKind.add⟩] : List Line)))
    ∧ ((Line.mk 6 (("y").data) LKind.add).number
        = (Line.mk 6 (("d").data) LKind.delete).number) := by
  have hw := delete_line_numbering ("+++ b/a\n@@ -1,2 +5,3 @@\n x\n-d\n-e\n+y")
    (FileDiff.mk (("a").data) none (("modified").data)
      [⟨1, 2, 5, 3,
        [⟨5, ("x").data, LKind.context⟩, ⟨6, ("d").data, LKind.delete⟩,
         ⟨6, ("e").data, LKind.delete⟩, ⟨6, ("y").data, LKind.add⟩]⟩] false)
    (Hunk.mk 1 2 5 3
      [⟨5, ("x").data, LKind.context⟩, ⟨6, ("d").data, LKind.delete⟩,
       ⟨6, ("e").data, LKind.delete⟩, ⟨6, ("y").data, LKind.add⟩])
    (by decide) (by decide) 1 (by decide) (by decide)
  exact ⟨hw.1, hw.2.1 3 (by decide) (by decide) (by decide)⟩

/-- Claim C4: `parse_diff` is total.  The embedding is a plain total
function into `DiffResult` (no `Option`/`Except`), mirroring that the
source raises no exception on any input: every branch either constructs
data or skips the line.  Moreover the empty string yields an empty file
list, hunks can only be created by lines matching the full hunk-header
regex (with numeric mandatory fields) — so a hunk-header-shaped line with
a non-numeric or missing mandatory field creates no `Hunk` — and such a
malformed header is skipped without failure, as the third conjunct shows
on a concrete input. -/
theorem parse_diff_total :
    (parse_diff ("")).files = []
    ∧ (∀ s : String, totalHunks (parse_diff s)
        ≤ ((splitNl s.data).filter (fun l => (parseHunkHeader l).isSome)).length)
    ∧ (parse_diff ("+++ b/f\n@@ -x,2 +3 @@\n+a")).files
        = [⟨("f").data, none, ("modified").data, [], false⟩] := by
  refine ⟨by decide, ?_, by decide⟩
  intro s
  have h := hunkCount_foldl (splitNl s.data) initState
  simpa [totalHunks, initState] using h

/-- Claim C5: `reviewable_files` is exactly the subsequence of `files`
(relative order preserved, witnessed by `List.Sublist`) of the entries
that are not binary and whose filename matches no skip pattern; it never
contains a binary entry, and a file named `package-lock.json` never
appears in it. -/
theorem reviewable_files_spec (d : DiffResult) :
    List.Sublist d.reviewable_files d.files
    ∧ (∀ f ∈ d.reviewable_files,
        f.is_binary = false ∧ _should_skip f.filename = false)
    ∧ (∀ f ∈ d.files, f.is_binary = false → _should_skip f.filename = false →
        f ∈ d.reviewable_files)
    ∧ (∀ f ∈ d.reviewable_files, f.filename ≠ ("package-lock.json").data) := by
  refine ⟨List.filter_sublist _, ?_, ?_, ?_⟩
  · intro f hf
    have h2 := (List.mem_filter.1 hf).2
    simp only [Bool.and_eq_true, Bool.not_eq_true'] at h2
    exact h2
  · intro f hf h1 h2
    exact List.mem_filter.2 ⟨hf, by simp [h1, h2]⟩
  · intro f hf heq
    have h2 := (List.mem_filter.1 hf).2
    rw [heq] at h2
    have hskip : _should_skip (("package-lock.json").data) = true := by decide
    simp [hskip] at h2

/-- Witness for C5: in a three-file result (binary image, lockfile,
ordinary source file) the ordinary file is reviewable. -/
theorem reviewable_files_spec_witness :
    (FileDiff.mk (("main.py").data) none (("modified").data) [] false)
      ∈ (DiffResult.mk
          [⟨("img.png").data, none, ("binary").data, [], true⟩,
           ⟨("package-lock.json").data, none, ("modified").data, [], false⟩,
           ⟨("main.py").data, none, ("modified").data, [], false⟩]).reviewable_files :=
  (reviewable_files_spec
    (DiffResult.mk
      [⟨("img.png").data, none, ("binary").data, [], true⟩,
       ⟨("package-lock.json").data, none, ("modified").data, [], false⟩,
       ⟨("main.py").data, none, ("modified").data, [], false⟩])).2.2.1
    (FileDiff.mk (("main.py").data) none (("modified").data) [] false)
    (by decide) (by decide) (by decide)

/-- Claim C9: formatting is the exact inverse of classification.  Every
`Line` recorded by `parse_diff` is emitted by `format_diff` (it occurs in
the line list `format_diff` joins) as the marker character of its kind
followed by the stored content (`formatLine`), and that emitted line is
byte-identical to one of the original input lines. -/
theorem format_line_roundtrip (s : String) (f : FileDiff) (h : Hunk) (l : Line)
    (hf : f ∈ (parse_diff s).files) (hh : h ∈ f.hunks) (hl : l ∈ h.lines) :
    formatLine l ∈ formatDiffLines f ∧ formatLine l ∈ splitNl s.data := by
  constructor
  · unfold formatDiffLines
    rw [List.mem_flatten]
    exact ⟨hunkHeaderLine h :: h.lines.map formatLine,
      List.mem_map_of_mem _ hh, List.mem_cons_of_mem _ (List.mem_map_of_mem _ hl)⟩
  · exact ((stInv_parse s).hunks_ok f hf h hh).2 l hl

/-- Witness for C9: the stored `add` line `y` of a concrete diff formats
back to the input line `+y`, which occurs among the split input lines. -/
theorem format_line_roundtrip_witness :
    formatLine ⟨6, ("y").data, LKind.add⟩
      ∈ splitNl (("+++ b/a\n@@ -1,2 +5,3 @@\n x\n-d\n+y").data) :=
  (format_line_roundtrip ("+++ b/a\n@@ -1,2 +5,3 @@\n x\n-d\n+y")
    (FileDiff.mk (("a").data) none (("modified").data)
      [⟨1, 2, 5, 3,
        [⟨5, ("x").data, LKind.context⟩, ⟨6, ("d").data, LKind.delete⟩,
         ⟨6, ("y").data, LKind.add⟩]⟩] false)
    (Hunk.mk 1 2 5 3
      [⟨5, ("x").data, LKind.context⟩, ⟨6, ("d").data, LKind.delete⟩,
       ⟨6, ("y").data, LKind.add⟩])
    (⟨6, ("y").data, LKind.add⟩)
    (by decide) (by decide) (by decide)).2

/-- Counterexample for C7 as stated: a pure-rename section (explicit
`rename from`/`rename to` marker lines, no hunks, no content change)
produces no `FileDiff` at all — the parser has no branch for rename
markers and only `Binary files`/`--- `/`+++ ` lines construct files. -/
theorem pure_rename_counterexample :
    (parse_diff
        ("diff --git a/old.py b/new.py\nsimilarity index 100%\nrename from old.py\nrename to new.py")).files
      = [] := by decide

/-- Amended C7: for every pure-rename section (any old and new path), the
rename marker lines are ignored as unclassifiable lines and `parse_diff`
produces no `FileDiff` for the section. -/
theorem pure_rename_produces_no_filediff (oldp newp : PStr) :
    (parseLines
      [(("diff --git a/").data) ++ oldp ++ ((" b/").data) ++ newp,
       ("similarity index 100%").data,
       (("rename from ").data) ++ oldp,
       (("rename to ").data) ++ newp]).files = [] := rfl

/-- Counterexample for C10 as stated: a file whose only added line is
whitespace-only.  The claim says the query is the (truncated) newline-join
of `added_lines` — here the three spaces — with fallback to deleted lines
only when there are no added lines; the code instead drops the blank added
line and falls back to the deleted line `y`. -/
theorem build_search_query_counterexample :
    _build_search_query
        (FileDiff.mk (("a.py").data) none (("modified").data)
          [⟨1, 1, 1, 2,
            [⟨1, ("   ").data, LKind.add⟩, ⟨1, ("y").data, LKind.delete⟩]⟩] false)
      ≠ claimedSearchQuery
        (FileDiff.mk (("a.py").data) none (("modified").data)
          [⟨1, 1, 1, 2,
            [⟨1, ("   ").data, LKind.add⟩, ⟨1, ("y").data, LKind.delete⟩]⟩] false) := by
  decide

theorem filter_hasText_map_content (L : List Line) :
    (L.map Line.content).filter hasText
      = (L.filter (fun l => hasText l.content)).map Line.content := by
  induction L with
  | nil => rfl
  | cons a t ih =>
    cases h : hasText a.content <;>
      simp [List.filter_cons, h, ih]

/-- Amended C10: the query builder returns the newline-joined contents of
the added lines that have some non-whitespace character, truncated to 500
characters, and it falls back to the (equally filtered) deleted lines
exactly when no added line has non-whitespace content. -/
theorem build_search_query_amended (f : FileDiff) :
    _build_search_query f
      = (joinNl
          (((if f.added_lines.any (fun l => hasText l.content)
              then f.added_lines else f.deleted_lines).filter
                (fun l => hasText l.content)).map Line.content)).take 500 := by
  unfold _build_search_query
  dsimp only
  have key : ((f.added_lines.map Line.content).filter hasText = [])
      ↔ (f.added_lines.any (fun l => hasText l.content) = false) := by
    rw [filter_hasText_map_content, List.map_eq_nil_iff, List.filter_eq_nil_iff,
      List.any_eq_false]
  by_cases he : (f.added_lines.map Line.content).filter hasText = []
  · rw [if_pos he, if_neg (by simp [key.1 he]), filter_hasText_map_content]
  · rw [if_neg he, if_pos (by
      rcases hb : f.added_lines.any (fun l => hasText l.content) with _ | _
      · exact absurd (key.2 hb) he
      · rfl), filter_hasText_map_content]

/-- Processing a run of `-`-prefixed content lines while a deleted-file's
hunk is open: each line is appended as a `delete` line carrying the
current counter value, and the counter never advances.  The hypothesis
excludes content lines that would collide with the `--- ` old-path
branch. -/
theorem delete_run (cs : List PStr) (hcs : ∀ c ∈ cs, (("-- ").data).isPrefixOf c = false)
    (ds : List Line) (n : Nat) :
    ((cs.map (fun c => '-' :: c)).foldl step
       (PState.mk
         [⟨("config.json").data, none, ("deleted").data, [⟨1, 1, 0, 0, ds⟩], false⟩]
         true (some 0) n (some (("deleted").data))))
      = PState.mk
          [⟨("config.json").data, none, ("deleted").data,
            [⟨1, 1, 0, 0, ds ++ cs.map (fun c => ⟨n, c, LKind.delete⟩)⟩], false⟩]
          true (some 0) n (some (("deleted").data)) := by
  induction cs generalizing ds with
  | nil => simp
  | cons c cs ih =>
    have hc := hcs c (by simp)
    have hstep : step
        (PState.mk
          [⟨("config.json").data, none, ("deleted").data, [⟨1, 1, 0, 0, ds⟩], false⟩]
          true (some 0) n (some (("deleted").data))) ('-' :: c)
        = PState.mk
            [⟨("config.json").data, none, ("deleted").data,
              [⟨1, 1, 0, 0, ds ++ [⟨n, c, LKind.delete⟩]⟩], false⟩]
            true (some 0) n (some (("deleted").data)) := by
      unfold step
      simp [List.isPrefixOf, hc, parseHunkHeader, stripPrefixP, contentStep,
        modifyIdx, pushLine, modifyLast]
    simp only [List.map_cons, List.foldl_cons, hstep]
    have hrest := ih (fun x hx => hcs x (by simp [hx])) (ds ++ [⟨n, c, LKind.delete⟩])
    rw [hrest]
    simp

/-- Claim C6: a standard deleted-file section (`diff --git` boundary,
`deleted file mode` marker, `--- a/config.json`, `+++ /dev/null`, one hunk
whose content lines all begin with `-`) yields exactly one `FileDiff`, of
status `deleted`, whose `deleted_lines` count equals the number of `-`
lines and whose `added_lines` is empty.  The hypothesis excludes `-` lines
that would themselves parse as `--- ` old-path header lines (such input is
ambiguous in the unified-diff grammar and is consumed by the earlier
old-path branch). -/
theorem deleted_file_section (cs : List PStr)
    (hcs : ∀ c ∈ cs, (("-- ").data).isPrefixOf c = false) :
    ((parseLines (deletedSection cs)).files.map FileDiff.status = [("deleted").data])
    ∧ ((parseLines (deletedSection cs)).files.map (fun f => f.deleted_lines.length)
        = [cs.length])
    ∧ ((parseLines (deletedSection cs)).files.map FileDiff.added_lines = [[]]) := by
  have hpre : List.foldl step initState
      [("diff --git a/config.json b/config.json").data,
       ("deleted file mode 100644").data,
       ("index 1234567..0000000").data,
       ("--- a/config.json").data,
       ("+++ /dev/null").data,
       ("@@ -1,1 +0,0 @@").data]
      = PState.mk
          [⟨("config.json").data, none, ("deleted").data, [⟨1, 1, 0, 0, []⟩], false⟩]
          true (some 0) 0 (some (("deleted").data)) := by decide
  have hfiles : (parseLines (deletedSection cs)).files
      = [⟨("config.json").data, none, ("deleted").data,
          [⟨1, 1, 0, 0, cs.map (fun c => ⟨0, c, LKind.delete⟩)⟩], false⟩] := by
    show ((deletedSection cs).foldl step initState).files = _
    unfold deletedSection
    rw [List.foldl_append, hpre, delete_run cs hcs [] 0]
    simp
  refine ⟨?_, ?_, ?_⟩
  · rw [hfiles]
    rfl
  · rw [hfiles]
    have hkeep : (cs.map (fun c => (⟨0, c, LKind.delete⟩ : Line))).filter Line.isDelete
        = cs.map (fun c => ⟨0, c, LKind.delete⟩) := by
      rw [List.filter_eq_self]
      intro a ha
      rcases List.mem_map.1 ha with ⟨c, _, rfl⟩
      rfl
    simp [FileDiff.deleted_lines, hkeep]
  · rw [hfiles]
    have hdrop : (cs.map (fun c => (⟨0, c, LKind.delete⟩ : Line))).filter Line.isAdd
        = [] := by
      rw [List.filter_eq_nil_iff]
      intro a ha
      rcases List.mem_map.1 ha with ⟨c, _, rfl⟩
      simp [Line.isAdd]
    simp [FileDiff.added_lines, hdrop]

/-- Witness for C6 with the two deleted lines `x` and `y`. -/
theorem deleted_file_section_witness :
    ((parseLines (deletedSection [("x").data, ("y").data])).files.map FileDiff.status
        = [("deleted").data])
    ∧ ((parseLines (deletedSection [("x").data, ("y").data])).files.map
          (fun f => f.deleted_lines.length)
        = [([("x").data, ("y").data] : List PStr).length])
    ∧ ((parseLines (deletedSection [("x").data, ("y").data])).files.map
          FileDiff.added_lines = [[]]) :=
  deleted_file_section [("x").data, ("y").data] (by decide)

/-! ## Lemmas: hunks at fixed positions are frozen once no longer open -/

theorem modifyLast_eq_modifyIdx (g : α → α) (l : List α) :
    modifyLast g l = modifyIdx l (l.length - 1) g := by
  induction l with
  | nil => rfl
  | cons a t ih =>
    cases t with
    | nil => rfl
    | cons b t2 =>
      simp [modifyLast, modifyIdx, ih]

theorem getElem?_some_lt {l : List α} {i : Nat} {a : α} (h : l[i]? = some a) :
    i < l.length :=
  (List.getElem?_eq_some.1 h).1

theorem hunksAtL_file {fs : List FileDiff} {i j : Nat} {hk : Hunk}
    (h : hunksAtL fs i j = some hk) :
    ∃ f, fs[i]? = some f ∧ f.hunks[j]? = some hk := by
  unfold hunksAtL at h
  rcases hf : fs[i]? with _ | f
  · rw [hf] at h
    exact absurd h (by simp)
  · rw [hf] at h
    exact ⟨f, rfl, h⟩

theorem hunksAtL_eq_of_getElem? {fs : List FileDiff} {i : Nat} {f : FileDiff}
    (hf : fs[i]? = some f) (j : Nat) : hunksAtL fs i j = f.hunks[j]? := by
  unfold hunksAtL
  rw [hf]

theorem openPosL_eq_some {fs : List FileDiff} {cv : Nat} {f : FileDiff}
    (hf : fs[cv]? = some f) :
    openPosL fs (some cv) = some (cv, f.hunks.length - 1) := by
  show (match fs[cv]? with
    | some f => some (cv, f.hunks.length - 1)
    | none => none) = _
  rw [hf]

theorem openPosL_eq_none {fs : List FileDiff} {cv : Nat}
    (hf : fs[cv]? = none) :
    openPosL fs (some cv) = none := by
  show (match fs[cv]? with
    | some f => some (cv, f.hunks.length - 1)
    | none => none) = _
  rw [hf]

theorem hunksAtL_append (fs : List FileDiff) (fd : FileDiff) {i j : Nat} {hk : Hunk}
    (h : hunksAtL fs i j = some hk) : hunksAtL (fs ++ [fd]) i j = some hk := by
  obtain ⟨f, hf, hj⟩ := hunksAtL_file h
  have hf2 : (fs ++ [fd])[i]? = some f := by
    rw [List.getElem?_append, if_pos (getElem?_some_lt hf), hf]
  rw [hunksAtL_eq_of_getElem? hf2, hj]

theorem openPosL_append (fs : List FileDiff) (fd : FileDiff) (c : Option Nat)
    {i j : Nat} {hk : Hunk}
    (hat : hunksAtL fs i j = some hk)
    (hne : openPosL fs c ≠ some (i, j)) :
    openPosL (fs ++ [fd]) c ≠ some (i, j) := by
  rcases c with _ | cv
  · simp [openPosL]
  · rcases hcf : fs[cv]? with _ | cf
    · have hge : fs.length ≤ cv := by
        by_contra hlt
        push_neg at hlt
        rw [List.getElem?_eq_getElem hlt] at hcf
        exact Option.noConfusion hcf
      rcases Nat.eq_or_lt_of_le hge with heq | hlt
      · have hnew : (fs ++ [fd])[cv]? = some fd := by
          rw [← heq, List.getElem?_concat_length]
        rw [openPosL_eq_some hnew]
        have hilt := getElem?_some_lt (hunksAtL_file hat).choose_spec.1
        intro hcon
        have h1 : cv = i := congrArg Prod.fst (Option.some_inj.mp hcon)
        omega
      · have hnone : (fs ++ [fd])[cv]? = none :=
          List.getElem?_eq_none (by simp; omega)
        rw [openPosL_eq_none hnone]
        simp
    · have hsame : (fs ++ [fd])[cv]? = some cf := by
        rw [List.getElem?_append, if_pos (getElem?_some_lt hcf), hcf]
      rw [openPosL_eq_some hsame]
      rw [openPosL_eq_some hcf] at hne
      exact hne

theorem hunksAtL_push_hunk (fs : List FileDiff) (hk0 : Hunk) {i j : Nat} {hk : Hunk}
    (hat : hunksAtL fs i j = some hk) :
    hunksAtL (modifyLast (pushHunk hk0) fs) i j = some hk := by
  obtain ⟨f, hf, hj⟩ := hunksAtL_file hat
  rw [modifyLast_eq_modifyIdx]
  by_cases hil : i = fs.length - 1
  · subst hil
    have hmod : (modifyIdx fs (fs.length - 1) (pushHunk hk0))[fs.length - 1]?
        = some (pushHunk hk0 f) := by
      rw [modifyIdx_getElem?, if_pos rfl, hf]
      rfl
    rw [hunksAtL_eq_of_getElem? hmod]
    show (f.hunks ++ [hk0])[j]? = some hk
    rw [List.getElem?_append, if_pos (getElem?_some_lt hj), hj]
  · have hmod : (modifyIdx fs (fs.length - 1) (pushHunk hk0))[i]? = some f := by
      rw [modifyIdx_getElem?, if_neg hil, hf]
    rw [hunksAtL_eq_of_getElem? hmod, hj]

theorem openPosL_push_hunk (fs : List FileDiff) (hk0 : Hunk) {i j : Nat} {hk : Hunk}
    (hat : hunksAtL fs i j = some hk) :
    openPosL (modifyLast (pushHunk hk0) fs) (some (fs.length - 1)) ≠ some (i, j) := by
  obtain ⟨f, hf, hj⟩ := hunksAtL_file hat
  by_cases hil : i = fs.length - 1
  · subst hil
    have hmod : (modifyLast (pushHunk hk0) fs)[fs.length - 1]? = some (pushHunk hk0 f) := by
      rw [modifyLast_eq_modifyIdx, modifyIdx_getElem?, if_pos rfl, hf]
      rfl
    rw [openPosL_eq_some hmod]
    intro hcon
    have h2 := congrArg Prod.snd (Option.some_inj.mp hcon)
    simp only [pushHunk, List.length_append, List.length_cons, List.length_nil] at h2
    have hjlt := getElem?_some_lt hj
    omega
  · rcases hcf : (modifyLast (pushHunk hk0) fs)[fs.length - 1]? with _ | cf
    · rw [openPosL_eq_none hcf]
      simp
    · rw [openPosL_eq_some hcf]
      intro hcon
      exact hil (congrArg Prod.fst (Option.some_inj.mp hcon)).symm

theorem hunksAtL_push_line (fs : List FileDiff) (c : Nat) (l0 : Line) {i j : Nat} {hk : Hunk}
    (hat : hunksAtL fs i j = some hk)
    (hne : openPosL fs (some c) ≠ some (i, j)) :
    hunksAtL (modifyIdx fs c (pushLine l0)) i j = some hk := by
  obtain ⟨f, hf, hj⟩ := hunksAtL_file hat
  by_cases hic : i = c
  · subst hic
    have hop : openPosL fs (some i) = some (i, f.hunks.length - 1) :=
      openPosL_eq_some hf
    rw [hop] at hne
    have hjne : j ≠ f.hunks.length - 1 := by
      intro hcon
      exact hne (by rw [hcon])
    have hmod : (modifyIdx fs i (pushLine l0))[i]? = some (pushLine l0 f) := by
      rw [modifyIdx_getElem?, if_pos rfl, hf]
      rfl
    rw [hunksAtL_eq_of_getElem? hmod]
    show (modifyLast _ f.hunks)[j]? = some hk
    rw [modifyLast_eq_modifyIdx, modifyIdx_getElem?, if_neg hjne, hj]
  · have hmod : (modifyIdx fs c (pushLine l0))[i]? = some f := by
      rw [modifyIdx_getElem?, if_neg hic, hf]
    rw [hunksAtL_eq_of_getElem? hmod, hj]

theorem openPosL_push_line (fs : List FileDiff) (c : Nat) (l0 : Line) :
    openPosL (modifyIdx fs c (pushLine l0)) (some c) = openPosL fs (some c) := by
  rcases hf : fs[c]? with _ | f
  · have hmod : (modifyIdx fs c (pushLine l0))[c]? = none := by
      rw [modifyIdx_getElem?, if_pos rfl, hf]
      rfl
    rw [openPosL_eq_none hmod, openPosL_eq_none hf]
  · have hmod : (modifyIdx fs c (pushLine l0))[c]? = some (pushLine l0 f) := by
      rw [modifyIdx_getElem?, if_pos rfl, hf]
      rfl
    rw [openPosL_eq_some hmod, openPosL_eq_some hf]
    show some (c, (modifyLast _ f.hunks).length - 1) = some (c, f.hunks.length - 1)
    rw [modifyLast_length]

theorem contentStep_frozen (s : PState) (l : PStr) {i j : Nat} {hk : Hunk}
    (hat : hunkAt s i j = some hk) (hne : openPos s ≠ some (i, j)) :
    hunkAt (contentStep s l) i j = some hk ∧ openPos (contentStep s l) ≠ some (i, j) := by
  unfold contentStep
  split
  · next xv lv c rest heq =>
    have hne2 : openPosL s.files (some c) ≠ some (i, j) := by
      have hop : openPos s = openPosL s.files (some c) := by
        show openPosL s.files s.curHunk = _
        rw [heq]
      rw [hop] at hne
      exact hne
    refine ⟨hunksAtL_push_line s.files c _ hat hne2, ?_⟩
    show openPosL (modifyIdx s.files c _) s.curHunk ≠ some (i, j)
    rw [heq, openPosL_push_line]
    exact hne2
  · next xv lv c rest heq =>
    have hne2 : openPosL s.files (some c) ≠ some (i, j) := by
      have hop : openPos s = openPosL s.files (some c) := by
        show openPosL s.files s.curHunk = _
        rw [heq]
      rw [hop] at hne
      exact hne
    refine ⟨hunksAtL_push_line s.files c _ hat hne2, ?_⟩
    show openPosL (modifyIdx s.files c _) s.curHunk ≠ some (i, j)
    rw [heq, openPosL_push_line]
    exact hne2
  · next xv lv c rest heq =>
    have hne2 : openPosL s.files (some c) ≠ some (i, j) := by
      have hop : openPos s = openPosL s.files (some c) := by
        show openPosL s.files s.curHunk = _
        rw [heq]
      rw [hop] at hne
      exact hne
    refine ⟨hunksAtL_push_line s.files c _ hat hne2, ?_⟩
    show openPosL (modifyIdx s.files c _) s.curHunk ≠ some (i, j)
    rw [heq, openPosL_push_line]
    exact hne2
  · exact ⟨hat, hne⟩

theorem step_frozen (s : PState) (l : PStr) {i j : Nat} {hk : Hunk}
    (hat : hunkAt s i j = some hk) (hne : openPos s ≠ some (i, j)) :
    hunkAt (step s l) i j = some hk ∧ openPos (step s l) ≠ some (i, j) := by
  unfold step
  split
  · refine ⟨hat, ?_⟩
    show openPosL s.files none ≠ some (i, j)
    simp [openPosL]
  split
  · exact ⟨hat, hne⟩
  split
  · exact ⟨hat, hne⟩
  split
  · split
    · exact ⟨hunksAtL_append _ _ hat, openPosL_append _ _ _ hat hne⟩
    · exact ⟨hat, hne⟩
  split
  · dsimp only
    split
    · exact ⟨hunksAtL_append _ _ hat, openPosL_append _ _ _ hat hne⟩
    · exact ⟨hat, hne⟩
  split
  · dsimp only
    split
    · exact ⟨hat, hne⟩
    · exact ⟨hunksAtL_append _ _ hat, openPosL_append _ _ _ hat hne⟩
  split
  · exact ⟨hat, hne⟩
  split
  · exact ⟨hunksAtL_push_hunk _ _ hat, openPosL_push_hunk _ _ hat⟩
  · exact contentStep_frozen s l hat hne

theorem foldl_frozen (ls : List PStr) (s : PState) {i j : Nat} {hk : Hunk}
    (hat : hunkAt s i j = some hk) (hne : openPos s ≠ some (i, j)) :
    hunkAt (ls.foldl step s) i j = some hk := by
  induction ls generalizing s with
  | nil => exact hat
  | cons l ls ih =>
    obtain ⟨h1, h2⟩ := step_frozen s l hat hne
    exact ih (step s l) h1 h2

theorem parseHunkHeader_head {l : PStr} (h : (parseHunkHeader l).isSome = true) :
    ∃ rest, l = '@' :: rest := by
  unfold parseHunkHeader at h
  rcases hs : stripPrefixP (("@@ -").data) l with _ | r
  · rw [hs] at h
    simp at h
  · unfold stripPrefixP at hs
    by_cases hp : (("@@ -").data).isPrefixOf l = true
    · cases l with
      | nil => simp [List.isPrefixOf] at hp
      | cons c rest =>
        refine ⟨rest, ?_⟩
        simp [List.isPrefixOf] at hp
        rw [hp.1]
    · rw [if_neg (by simpa using hp)] at hs
      exact Option.noConfusion hs

theorem step_closes (s : PState) (l : PStr) {i j : Nat} {hk : Hunk}
    (hat : hunkAt s i j = some hk)
    (hclose : (("diff --git").data).isPrefixOf l = true
      ∨ ((parseHunkHeader l).isSome = true ∧ s.hasFile = true)) :
    hunkAt (step s l) i j = some hk ∧ openPos (step s l) ≠ some (i, j) := by
  rcases hclose with hgit | ⟨hm, hh⟩
  · have hstep : step s l
        = { s with hasFile := false, curHunk := none, pending := none } := by
      unfold step
      simp [hgit]
    rw [hstep]
    refine ⟨hat, ?_⟩
    show openPosL s.files none ≠ some (i, j)
    simp [openPosL]
  · obtain ⟨rest, rfl⟩ := parseHunkHeader_head hm
    obtain ⟨⟨o, oc, n, nc⟩, hq⟩ := Option.isSome_iff_exists.1 hm
    have hstep : step s ('@' :: rest)
        = { s with files := modifyLast (pushHunk ⟨o, oc, n, nc, []⟩) s.files,
                   curHunk := some (s.files.length - 1), newLineNum := n } := by
      unfold step
      simp [List.isPrefixOf, hq, hh]
    rw [hstep]
    exact ⟨hunksAtL_push_hunk _ _ hat, openPosL_push_hunk _ _ hat⟩

/-- Counterexample for C8 as stated: a binary-files marker is a file
boundary that constructs a `FileDiff`, yet it does not close the open
hunk.  Parsing the input up to the marker leaves `f1`'s hunk with no
lines; the `+z` line arriving after the marker is appended to that very
hunk. -/
theorem hunk_closure_counterexample :
    ((parse_diff ("+++ b/f1\n@@ -1 +1 @@\nBinary files a/x and b/x differ")).files
      = [⟨("f1").data, none, ("modified").data, [⟨1, 1, 1, 1, []⟩], false⟩,
         ⟨("x").data, none, ("binary").data, [], true⟩])
    ∧ ((parse_diff ("+++ b/f1\n@@ -1 +1 @@\nBinary files a/x and b/x differ\n+z")).files
      = [⟨("f1").data, none, ("modified").data,
          [⟨1, 1, 1, 1, [⟨1, ("z").data, LKind.add⟩]⟩], false⟩,
         ⟨("x").data, none, ("binary").data, [], true⟩]) := by
  exact ⟨by decide, by decide⟩

/-- Amended C8: once a `diff --git` line, or a hunk-header line while a
file is current, is consumed, every hunk existing at that point — in
particular the hunk that was open — is frozen: it is never mutated again
(no further `Line` is appended to it) for the remainder of the parse.
Binary-marker and `---`/`+++` file-constructing lines, by contrast, do
not close the open hunk (see the counterexample). -/
theorem closed_hunk_frozen (pre post : List PStr) (l : PStr) (i j : Nat) (hk : Hunk)
    (hat : hunkAt (parseState pre) i j = some hk)
    (hclose : (("diff --git").data).isPrefixOf l = true
      ∨ ((parseHunkHeader l).isSome = true ∧ (parseState pre).hasFile = true)) :
    hunkAt (parseState (pre ++ l :: post)) i j = some hk := by
  unfold parseState
  rw [List.foldl_append, List.foldl_cons]
  obtain ⟨h1, h2⟩ := step_closes ((pre).foldl step initState) l hat hclose
  exact foldl_frozen post _ h1 h2

/-- Witness for C8: the hunk of `f1`, holding its single line `x`, is
unchanged after a `diff --git` boundary followed by a whole further file
section. -/
theorem closed_hunk_frozen_witness :
    hunkAt (parseState
      ([("+++ b/f1").data, ("@@ -1 +1 @@").data, ("+x").data]
        ++ ("diff --git a/f2 b/f2").data
          :: [("+++ b/f2").data, ("@@ -5 +5 @@").data, ("+y").data])) 0 0
      = some ⟨1, 1, 1, 1, [⟨1, ("x").data, LKind.add⟩]⟩ :=
  closed_hunk_frozen
    [("+++ b/f1").data, ("@@ -1 +1 @@").data, ("+x").data]
    [("+++ b/f2").data, ("@@ -5 +5 @@").data, ("+y").data]
    (("diff --git a/f2 b/f2").data) 0 0
    (⟨1, 1, 1, 1, [⟨1, ("x").data, LKind.add⟩]⟩)
    (by decide) (Or.inl (by decide))

/-! ## Lemmas: binary files and hunk attachment -/

theorem exists_cons_of_isPrefixOf {c : Char} {p l : PStr}
    (h : ((c :: p) : PStr).isPrefixOf l = true) : ∃ rest, l = c :: rest := by
  cases l with
  | nil => simp [List.isPrefixOf] at h
  | cons d m =>
    simp [List.isPrefixOf] at h
    exact ⟨m, by rw [h.1]⟩

theorem parseHunkHeader_none_of_head {c : Char} (rest : PStr) (h : c ≠ '@') :
    parseHunkHeader (c :: rest) = none := by
  unfold parseHunkHeader stripPrefixP
  rw [if_neg]
  intro hcon
  simp [List.isPrefixOf] at hcon
  exact h hcon.1.symm

theorem noHunkBeforeGit_cons {l : PStr} (ls : List PStr)
    (hg : (("diff --git").data).isPrefixOf l = false)
    (hn : parseHunkHeader l = none) :
    noHunkBeforeGit (l :: ls) = noHunkBeforeGit ls := by
  conv_lhs => rw [noHunkBeforeGit]
  rw [hg, hn]
  simp

theorem noHunkBeforeGit_cons_hunk {l : PStr} (ls : List PStr)
    (hg : (("diff --git").data).isPrefixOf l = false)
    (hs : (parseHunkHeader l).isSome = true) :
    noHunkBeforeGit (l :: ls) = false := by
  conv_lhs => rw [noHunkBeforeGit]
  rw [hg, hs]
  simp

theorem binarySafe_cons {l : PStr} {ls : List PStr} (h : binarySafe (l :: ls) = true) :
    (((("Binary files").data).isPrefixOf l && (searchBinary l).isSome) = true
      → noHunkBeforeGit ls = true)
    ∧ binarySafe ls := by
  simp only [binarySafe, Bool.and_eq_true] at h
  refine ⟨?_, h.2⟩
  intro hg
  have h1 := h.1
  rw [hg] at h1
  simpa using h1

theorem getLast?_modifyLast (g : α → α) (l : List α) :
    (modifyLast g l).getLast? = (l.getLast?).map g := by
  induction l with
  | nil => rfl
  | cons a t ih =>
    cases t with
    | nil => rfl
    | cons b t2 =>
      show (a :: modifyLast g (b :: t2)).getLast? = _
      rcases hbt : modifyLast g (b :: t2) with _ | ⟨x, xs⟩
      · cases t2 <;> simp [modifyLast] at hbt
      · rw [List.getLast?_cons_cons, ← hbt, ih, List.getLast?_cons_cons]

theorem getLast?_binary_modifyIdx (fs : List FileDiff) (c : Nat) (g : FileDiff → FileDiff)
    (hg : ∀ f, (g f).is_binary = f.is_binary) :
    ((modifyIdx fs c g).getLast?).map FileDiff.is_binary
      = (fs.getLast?).map FileDiff.is_binary := by
  induction fs generalizing c with
  | nil => rfl
  | cons a t ih =>
    cases c with
    | zero =>
      cases t with
      | nil => simp [modifyIdx, hg]
      | cons b t2 =>
        show ((g a :: b :: t2).getLast?).map _ = ((a :: b :: t2).getLast?).map _
        rw [List.getLast?_cons_cons, List.getLast?_cons_cons]
    | succ n =>
      cases t with
      | nil => rfl
      | cons b t2 =>
        show ((a :: modifyIdx (b :: t2) n g).getLast?).map _
          = ((a :: b :: t2).getLast?).map _
        rcases hmt : modifyIdx (b :: t2) n g with _ | ⟨x, xs⟩
        · cases n <;> simp [modifyIdx] at hmt
        · rw [List.getLast?_cons_cons, ← hmt, ih n, List.getLast?_cons_cons]

theorem lastBinary_eq_getD (s : PState) :
    lastBinary s
      = (s.hasFile && (((s.files.getLast?).map FileDiff.is_binary).getD false)) := by
  unfold lastBinary
  cases h : s.files.getLast? with
  | none => rfl
  | some f => rfl

theorem lastBinary_push_hunk (s : PState) (hk0 : Hunk) (c : Option Nat) (n : Nat) :
    lastBinary { s with files := modifyLast (pushHunk hk0) s.files,
                        curHunk := c, newLineNum := n }
      = lastBinary s := by
  rw [lastBinary_eq_getD, lastBinary_eq_getD]
  show (s.hasFile && _) = (s.hasFile && _)
  rw [getLast?_modifyLast]
  rcases s.files.getLast? with _ | f <;> rfl

theorem lastBinary_push_line (s : PState) (cidx : Nat) (l0 : Line) (n : Nat) :
    lastBinary { s with files := modifyIdx s.files cidx (pushLine l0), newLineNum := n }
      = lastBinary s := by
  rw [lastBinary_eq_getD, lastBinary_eq_getD]
  show (s.hasFile
      && (((modifyIdx s.files cidx (pushLine l0)).getLast?).map FileDiff.is_binary).getD false)
    = (s.hasFile && ((s.files.getLast?).map FileDiff.is_binary).getD false)
  rw [getLast?_binary_modifyIdx s.files cidx (pushLine l0) (fun f => rfl)]

theorem lastBinary_contentStep (s : PState) (l : PStr) :
    lastBinary (contentStep s l) = lastBinary s := by
  unfold contentStep
  split
  · exact lastBinary_push_line s _ _ _
  · exact lastBinary_push_line s _ _ _
  · exact lastBinary_push_line s _ _ _
  · rfl

theorem contentStep_files_inv (s : PState) (l : PStr)
    (h1 : ∀ f ∈ s.files, f.is_binary = true → f.hunks = []) :
    ∀ f ∈ (contentStep s l).files, f.is_binary = true → f.hunks = [] := by
  intro f hf hbin
  unfold contentStep at hf
  split at hf
  · rcases mem_modifyIdx hf with hf | ⟨y, hy, rfl⟩
    · exact h1 f hf hbin
    · have hyb : y.is_binary = true := hbin
      simp [pushLine, h1 y (List.getElem?_mem hy) hyb, modifyLast]
  · rcases mem_modifyIdx hf with hf | ⟨y, hy, rfl⟩
    · exact h1 f hf hbin
    · have hyb : y.is_binary = true := hbin
      simp [pushLine, h1 y (List.getElem?_mem hy) hyb, modifyLast]
  · rcases mem_modifyIdx hf with hf | ⟨y, hy, rfl⟩
    · exact h1 f hf hbin
    · have hyb : y.is_binary = true := hbin
      simp [pushLine, h1 y (List.getElem?_mem hy) hyb, modifyLast]
  · exact h1 f hf hbin

theorem binary_step (s : PState) (l : PStr) (ls : List PStr)
    (h1 : ∀ f ∈ s.files, f.is_binary = true → f.hunks = [])
    (h2 : lastBinary s = true → noHunkBeforeGit (l :: ls) = true)
    (hbs : ((("Binary files").data).isPrefixOf l && (searchBinary l).isSome) = true
      → noHunkBeforeGit ls = true) :
    (∀ f ∈ (step s l).files, f.is_binary = true → f.hunks = [])
    ∧ (lastBinary (step s l) = true → noHunkBeforeGit ls = true) := by
  by_cases hgit : (("diff --git").data).isPrefixOf l = true
  · have hstep : step s l
        = { s with hasFile := false, curHunk := none, pending := none } := by
      unfold step
      simp [hgit]
    rw [hstep]
    refine ⟨h1, ?_⟩
    intro hlb
    rw [lastBinary_eq_getD] at hlb
    simp at hlb
  · have hgb : (("diff --git").data).isPrefixOf l = false := by
      rwa [Bool.not_eq_true] at hgit
    unfold step
    rw [if_neg (by simp [hgb])]
    split
    · -- new file
      rename_i hnf
      refine ⟨h1, ?_⟩
      intro hlb
      have hlb2 : lastBinary s = true := hlb
      obtain ⟨rest, rfl⟩ := exists_cons_of_isPrefixOf hnf
      have hnh : parseHunkHeader ('n' :: rest) = none :=
        parseHunkHeader_none_of_head rest (by decide)
      have h2' := h2 hlb2
      rw [noHunkBeforeGit_cons ls hgb hnh] at h2'
      exact h2'
    split
    · -- deleted file
      rename_i hdf
      refine ⟨h1, ?_⟩
      intro hlb
      have hlb2 : lastBinary s = true := hlb
      obtain ⟨rest, rfl⟩ := exists_cons_of_isPrefixOf hdf
      have hnh : parseHunkHeader ('d' :: rest) = none :=
        parseHunkHeader_none_of_head rest (by decide)
      have h2' := h2 hlb2
      rw [noHunkBeforeGit_cons ls hgb hnh] at h2'
      exact h2'
    split
    · -- Binary files
      rename_i hbp
      split
      · rename_i name heq
        refine ⟨?_, ?_⟩
        · intro f hf hbin
          rcases List.mem_append.1 hf with hf | hf
          · exact h1 f hf hbin
          · obtain rfl : f = ⟨name, none, ("binary").data, [], true⟩ := by simpa using hf
            rfl
        · intro _
          apply hbs
          have hbpb : (("Binary files").data).isPrefixOf l = true := hbp
          rw [hbpb, heq]
          rfl
      · rename_i heq
        refine ⟨h1, ?_⟩
        intro hlb
        have hlb2 : lastBinary s = true := hlb
        obtain ⟨rest, rfl⟩ := exists_cons_of_isPrefixOf hbp
        have hnh : parseHunkHeader ('B' :: rest) = none :=
          parseHunkHeader_none_of_head rest (by decide)
        have h2' := h2 hlb2
        rw [noHunkBeforeGit_cons ls hgb hnh] at h2'
        exact h2'
    split
    · -- --- line
      rename_i hop
      dsimp only
      split
      · refine ⟨?_, ?_⟩
        · intro f hf hbin
          rcases List.mem_append.1 hf with hf | hf
          · exact h1 f hf hbin
          · obtain rfl : f = ⟨(l.drop 4).drop 2, none, ("deleted").data, [], false⟩ := by
              simpa using hf
            exact Bool.noConfusion hbin
        · intro hlb
          rw [lastBinary_eq_getD] at hlb
          simp [List.getLast?_concat] at hlb
      · refine ⟨h1, ?_⟩
        intro hlb
        have hlb2 : lastBinary s = true := hlb
        obtain ⟨rest, rfl⟩ := exists_cons_of_isPrefixOf hop
        have hnh : parseHunkHeader ('-' :: rest) = none :=
          parseHunkHeader_none_of_head rest (by decide)
        have h2' := h2 hlb2
        rw [noHunkBeforeGit_cons ls hgb hnh] at h2'
        exact h2'
    split
    · -- +++ line
      rename_i hnp
      dsimp only
      split
      · refine ⟨h1, ?_⟩
        intro hlb
        have hlb2 : lastBinary s = true := hlb
        obtain ⟨rest, rfl⟩ := exists_cons_of_isPrefixOf hnp
        have hnh : parseHunkHeader ('+' :: rest) = none :=
          parseHunkHeader_none_of_head rest (by decide)
        have h2' := h2 hlb2
        rw [noHunkBeforeGit_cons ls hgb hnh] at h2'
        exact h2'
      · refine ⟨?_, ?_⟩
        · intro f hf hbin
          rcases List.mem_append.1 hf with hf | hf
          · exact h1 f hf hbin
          · have hfb : f.is_binary = false := by
              rcases (by simpa using hf : f = _) with rfl
              rfl
            rw [hfb] at hbin
            exact Bool.noConfusion hbin
        · intro hlb
          rw [lastBinary_eq_getD] at hlb
          simp [List.getLast?_concat] at hlb
    split
    · -- index line
      rename_i hil
      refine ⟨h1, ?_⟩
      intro hlb
      have hlb2 : lastBinary s = true := hlb
      obtain ⟨rest, rfl⟩ := exists_cons_of_isPrefixOf hil
      have hnh : parseHunkHeader ('i' :: rest) = none :=
        parseHunkHeader_none_of_head rest (by decide)
      have h2' := h2 hlb2
      rw [noHunkBeforeGit_cons ls hgb hnh] at h2'
      exact h2'
    split
    · -- hunk header with a current file
      rename_i o oc n nc heq hhf
      by_cases hlbs : lastBinary s = true
      · exfalso
        have h2' := h2 hlbs
        rw [noHunkBeforeGit_cons_hunk ls hgb (by rw [heq]; rfl)] at h2'
        exact Bool.noConfusion h2'
      · have hlbf : lastBinary s = false := by
          cases hv : lastBinary s with
          | false => rfl
          | true => exact absurd hv hlbs
        refine ⟨?_, ?_⟩
        · intro f hf hbin
          rcases List.eq_nil_or_concat s.files with hnil | ⟨A, x, hAx⟩
          · rw [hnil] at hf
            simp [modifyLast] at hf
          · rw [List.concat_eq_append] at hAx
            rw [hAx, modifyLast_concat] at hf
            rcases List.mem_append.1 hf with hf | hf
            · exact h1 f (by rw [hAx]; exact List.mem_append_left _ hf) hbin
            · obtain rfl : f = pushHunk ⟨o, oc, n, nc, []⟩ x := by simpa using hf
              exfalso
              have hxb : x.is_binary = true := hbin
              have hcontra : lastBinary s = true := by
                rw [lastBinary_eq_getD, hAx]
                simp [List.getLast?_concat, hxb, hhf]
              rw [hcontra] at hlbf
              exact Bool.noConfusion hlbf
        · intro hlb2
          rw [lastBinary_push_hunk] at hlb2
          rw [hlb2] at hlbf
          exact Bool.noConfusion hlbf
    · -- unmatched content line
      rename_i hno
      refine ⟨contentStep_files_inv s l h1, ?_⟩
      intro hlb2
      rw [lastBinary_contentStep] at hlb2
      have hhf : s.hasFile = true := by
        rw [lastBinary_eq_getD, Bool.and_eq_true] at hlb2
        exact hlb2.1
      rcases hq : parseHunkHeader l with _ | q
      · have h2' := h2 hlb2
        rw [noHunkBeforeGit_cons ls hgb hq] at h2'
        exact h2'
      · exfalso
        obtain ⟨o, oc, n, nc⟩ := q
        exact hno o oc n nc hq hhf

theorem binary_foldl (ls : List PStr) (s : PState)
    (h1 : ∀ f ∈ s.files, f.is_binary = true → f.hunks = [])
    (h2 : lastBinary s = true → noHunkBeforeGit ls = true)
    (h3 : binarySafe ls = true) :
    ∀ f ∈ (ls.foldl step s).files, f.is_binary = true → f.hunks = [] := by
  induction ls generalizing s with
  | nil => exact h1
  | cons l ls ih =>
    obtain ⟨hbsl, h3'⟩ := binarySafe_cons h3
    obtain ⟨h1', h2'⟩ := binary_step s l ls h1 h2 hbsl
    exact ih (step s l) h1' h2' h3'

/-- Counterexample for C3 as stated: a hunk-header line directly after a
binary-files marker attaches a hunk to the binary `FileDiff`, because the
binary branch leaves the freshly appended binary file as the current file
and the hunk-header branch appends to the current file unconditionally. -/
theorem binary_file_with_hunk_counterexample :
    (parse_diff ("Binary files a/x.png and b/x.png differ\n@@ -1 +1 @@")).files
      = [⟨("x.png").data, none, ("binary").data, [⟨1, 1, 1, 1, []⟩], true⟩] := by
  decide

/-- Amended C3: binary `FileDiff`s are created with no hunks and accrue
one only if a hunk-header line arrives while the binary file is still the
current file.  For every input in which each binary-marker line that
constructs a binary file is followed by a `diff --git` line before any
hunk-header line (`binarySafe` — true of well-formed git diffs, where a
binary file section contains no hunks), every `FileDiff` with `is_binary`
true has an empty hunks list. -/
theorem binary_files_no_hunks (s : String)
    (hsafe : binarySafe (splitNl s.data) = true)
    (f : FileDiff) (hf : f ∈ (parse_diff s).files) (hbin : f.is_binary = true) :
    f.hunks = [] := by
  refine binary_foldl (splitNl s.data) initState ?_ ?_ hsafe f hf hbin
  · intro f hf
    simp [initState] at hf
  · intro hlb
    rw [lastBinary_eq_getD] at hlb
    simp [initState] at hlb

/-- Witness for C3 (amended): a binary file followed by an ordinary file
section across a `diff --git` boundary satisfies `binarySafe`, and the
binary `FileDiff` has no hunks. -/
theorem binary_files_no_hunks_witness :
    binarySafe (splitNl
      (("Binary files a/x.png and b/x.png differ\ndiff --git a/y.py b/y.py\n+++ b/y.py\n@@ -1 +1 @@\n+q").data))
      = true
    ∧ (FileDiff.mk (("x.png").data) none (("binary").data) [] true).hunks = [] :=
  ⟨by decide,
    binary_files_no_hunks
      ("Binary files a/x.png and b/x.png differ\ndiff --git a/y.py b/y.py\n+++ b/y.py\n@@ -1 +1 @@\n+q")
      (by decide)
      (FileDiff.mk (("x.png").data) none (("binary").data) [] true)
      (by decide) (by decide)⟩

end DiffReview
